import Mathlib

/-!
Verification development for the fastx library (FASTA/FASTQ readers with
indexed random access to BGZF-compressed archives).

The Rust sources are shallowly embedded: byte streams are `List Nat`
(each element one byte value), `u64`/`usize` arithmetic is `Nat` with an
explicit `% 2 ^ 64` at the operations where wrap-around can occur
(release-build semantics; operations that panic in every build mode,
such as division by zero or out-of-bounds indexing, are modelled by an
explicit failure outcome).  Fallible operations return `Except`/`Option`
or a dedicated outcome type with an `err` and, where the Rust code can
panic, a `panic` constructor.  All recursion is structural (bounded by
an explicit fuel argument where the Rust loop is bounded only by a
semantic measure), so every definition evaluates by kernel reduction.
-/

/-- Equality on `Except` results is decidable (needed to evaluate the
models on concrete inputs). -/
instance {ε α : Type} [DecidableEq ε] [DecidableEq α] : DecidableEq (Except ε α) := fun x y =>
  match x, y with
  | .ok a, .ok b =>
    if h : a = b then .isTrue (by rw [h]) else .isFalse (by intro he; cases he; exact h rfl)
  | .error a, .error b =>
    if h : a = b then .isTrue (by rw [h]) else .isFalse (by intro he; cases he; exact h rfl)
  | .ok _, .error _ => .isFalse (by intro he; cases he)
  | .error _, .ok _ => .isFalse (by intro he; cases he)

/-! ### GZI index (src/gzi.rs)

`GziIndex::get_compressed_offset` calls `slice::binary_search_by` on the
entry list ordered by uncompressed offset.  `bsGo` mirrors the standard
library's binary-search loop, which maintains `left`, `right` and
`size = right - left` and probes `mid = left + size / 2`; here the pair
`(left, size)` replaces `(left, right)` and an extra fuel argument (an
upper bound on the iteration count, `size` suffices) makes the recursion
structural.  `.ok i` is Rust's `Ok(i)` (element found at `i`), `.error i`
is `Err(i)` (insertion point `i`). -/

def bsGo (xs : List Nat) (t : Nat) : Nat → Nat → Nat → Except Nat Nat
  | _, left, 0 => .error left
  | 0, left, _ + 1 => .error left
  | fuel + 1, left, size + 1 =>
    let mid := left + (size + 1) / 2
    let v := xs.getD mid 0
    if v < t then bsGo xs t fuel (mid + 1) (left + size - mid)
    else if t < v then bsGo xs t fuel left (mid - left)
    else .ok mid

def binarySearch (xs : List Nat) (t : Nat) : Except Nat Nat :=
  bsGo xs t xs.length 0 xs.length

/-- `GziIndex::get_compressed_offset`.  Entries are
`(compressed_offset, uncompressed_offset)` pairs; the search key is the
second component. -/
def getCompressedOffset (entries : List (Nat × Nat)) (u : Nat) : Option Nat :=
  if entries.isEmpty then none
  else
    match binarySearch (entries.map Prod.snd) u with
    | .ok i => some (entries.getD i (0, 0)).1
    | .error 0 => some (entries.getD 0 (0, 0)).1
    | .error i =>
      if entries.length ≤ i then (entries.getLast?).map Prod.fst
      else some (entries.getD (i - 1) (0, 0)).1

/-- Little-endian value of a byte list (least significant byte first). -/
def leVal : List Nat → Nat
  | [] => 0
  | b :: rest => b + 256 * leVal rest

/-- Outcome of `GziIndex::from_path` after the file has been slurped into
`buffer`: a parsed entry list, an `InvalidData` error, or a panic. -/
inductive GziOut where
  | ok (entries : List (Nat × Nat))
  | err
  | panic
  deriving DecidableEq, Repr

/-- The entry-decoding loop `for _ in 0..num_entries`, reading 16 bytes
per entry at increasing offsets.  `none` models the panic of an
out-of-bounds index into `buffer`. -/
def gziLoop (buffer : List Nat) : Nat → Nat → Option (List (Nat × Nat))
  | 0, _ => some []
  | k + 1, off =>
    if buffer.length < off + 16 then none
    else
      let c := leVal ((buffer.drop off).take 8)
      let u := leVal ((buffer.drop (off + 8)).take 8)
      match gziLoop buffer k (off + 16) with
      | none => none
      | some es => some ((c, u) :: es)

/-- The check `entries[i].1 < entries[i-1].1` for `i in 1..len`. -/
def sortedByUnc : List (Nat × Nat) → Bool
  | [] => true
  | [_] => true
  | a :: b :: rest => decide (a.2 ≤ b.2) && sortedByUnc (b :: rest)

/-- `GziIndex::from_path`, after `read_to_end` has produced `buffer`.
`expected_size = 8 + num_entries * 16` is `usize` arithmetic and wraps at
`2 ^ 64` (release build; in debug the multiplication overflow itself
panics).  `Vec::with_capacity(num_entries)` panics with a capacity
overflow whenever `num_entries * 16` exceeds `isize::MAX`. -/
def gziFromBytes (buffer : List Nat) : GziOut :=
  if buffer.length < 8 then .err
  else
    let n := leVal (buffer.take 8)
    let expected := (8 + (n * 16) % 2 ^ 64) % 2 ^ 64
    if buffer.length < expected then .err
    else if 2 ^ 63 - 1 < n * 16 then .panic
    else
      match gziLoop buffer n 8 with
      | none => .panic
      | some entries => if sortedByUnc entries then .ok entries else .err

/-! ### FAI index (src/fai.rs)

`FaiEntry` keeps the sequence name as its byte list (Rust stores a
`String`; for the ASCII names exercised here the UTF-8 bytes are the
character codes).  `offset_for_position` computes in `u64`: the division
and remainder by `line_bases` panic in every build mode when
`line_bases = 0` (modelled as `none`); the additions and the
multiplication wrap at `2 ^ 64` in release builds (modelled by the
explicit `% 2 ^ 64`, applied in the code's evaluation order). -/

structure FaiEntry where
  name : List Nat
  length : Nat
  offset : Nat
  line_bases : Nat
  line_width : Nat
  deriving DecidableEq, Repr

def W64 : Nat := 2 ^ 64

/-- `FaiEntry::offset_for_position`. -/
def offsetForPosition (e : FaiEntry) (start : Nat) : Option Nat :=
  if e.line_bases = 0 then none
  else
    let full_lines := start / e.line_bases
    let col := start % e.line_bases
    some (((e.offset + (full_lines * e.line_width) % W64) % W64 + col) % W64)

/-- `FaiEntry::region_length` (`u64::saturating_sub` is `Nat` subtraction). -/
def regionLength (e : FaiEntry) (start endp : Nat) : Nat :=
  min endp e.length - min start e.length

/-- ASCII whitespace recognised by Rust's `char::is_whitespace`
(the further non-ASCII Unicode whitespace code points are not modelled;
no claim exercises them). -/
def rustIsWs (c : Char) : Bool :=
  c = ' ' || c = '\t' || c = '\n' || c = '\r' || c = '\x0b' || c = '\x0c'

/-- `str::trim` on a character list. -/
def rustTrim (cs : List Char) : List Char :=
  ((cs.dropWhile rustIsWs).reverse.dropWhile rustIsWs).reverse

/-- `str::split('\t')`: consecutive separators yield empty fields and the
empty input yields one empty field. -/
def splitTab : List Char → List (List Char)
  | [] => [[]]
  | c :: rest =>
    if c = '\t' then [] :: splitTab rest
    else
      match splitTab rest with
      | [] => [[c]]
      | g :: gs => (c :: g) :: gs

/-- Accumulator loop of `u64::from_str_radix`: one digit at a time,
rejecting any intermediate value outside `u64` (`PosOverflow`). -/
def digitsValGo : List Char → Nat → Option Nat
  | [], acc => some acc
  | c :: rest, acc =>
    if c.isDigit then
      let acc := acc * 10 + (c.toNat - 48)
      if acc < W64 then digitsValGo rest acc else none
    else none

/-- Decimal digit run for `u64::from_str`: at least one digit, all
digits, value within `u64` (overflow is a parse error). -/
def digitsVal : List Char → Option Nat
  | [] => none
  | cs => digitsValGo cs 0

/-- `str::parse::<u64>()`: an optional leading `+`, then digits. -/
def parseU64 : List Char → Option Nat
  | '+' :: rest => digitsVal rest
  | cs => digitsVal cs

/-- One iteration of the `FaiIndex::from_path` line loop: `ok none` when
the (trimmed) line is skipped as blank or `#`-comment, `ok (some e)` for
a parsed entry, `error` for the `InvalidData` rejections (field count
`≠ 5`, unparsable number, `line_width < line_bases`). -/
def parseFaiLine (cs : List Char) : Except Unit (Option FaiEntry) :=
  let line := rustTrim cs
  if line = [] then .ok none
  else if line.head? = some '#' then .ok none
  else
    let parts := splitTab line
    if parts.length ≠ 5 then .error ()
    else
      match parseU64 (parts.getD 1 []), parseU64 (parts.getD 2 []),
            parseU64 (parts.getD 3 []), parseU64 (parts.getD 4 []) with
      | some length, some offset, some line_bases, some line_width =>
        if line_width < line_bases then .error ()
        else
          .ok (some { name := (parts.getD 0 []).map Char.toNat,
                      length := length, offset := offset,
                      line_bases := line_bases, line_width := line_width })
      | _, _, _, _ => .error ()

/-- The `FaiIndex::from_path` loop over the file's lines (the entries are
kept as the list of parsed records, in file order; the Rust `HashMap`
holds a subset of these when names repeat, so every map value is a
member of this list). -/
def faiLoadLines : List (List Char) → Except Unit (List FaiEntry)
  | [] => .ok []
  | l :: rest =>
    match parseFaiLine l with
    | .error e => .error e
    | .ok none => faiLoadLines rest
    | .ok (some entry) =>
      match faiLoadLines rest with
      | .error e => .error e
      | .ok es => .ok (entry :: es)

/-- `HashMap::get` by sequence name over the entry list. -/
def lookupFai (entries : List FaiEntry) (name : List Nat) : Option FaiEntry :=
  entries.find? (fun e => e.name == name)

/-! ### Record parser (src/lib.rs, module FastX)

The buffered byte source is a `List Nat`; each read primitive returns
the bytes it consumed together with the remaining stream.  Rust reads
header lines into `String`s (UTF-8-validated); names are modelled as
byte lists and that validation is not modelled — none of the claims
distinguishes invalid-UTF-8 inputs. -/

/-- `BufRead::read_line` / `read_until(b'\n')`: consume up to and
including the first LF; at end of input return what is left. -/
def readLineM : List Nat → List Nat × List Nat
  | [] => ([], [])
  | b :: rest =>
    if b = 10 then ([10], rest)
    else
      let (l, r) := readLineM rest
      (b :: l, r)

/-- `read_until_before(reader, b'>')`: consume up to but not including
the first `>`. -/
def readUntilBefore62 : List Nat → List Nat × List Nat
  | [] => ([], [])
  | b :: rest =>
    if b = 62 then ([], b :: rest)
    else
      let (l, r) := readUntilBefore62 rest
      (b :: l, r)

/-- `rstrip_newline_string` / `rstrip_newline_vec`: drop trailing LF and
CR bytes. -/
def rstripNL (l : List Nat) : List Nat :=
  (l.reverse.dropWhile (fun b => b = 10 || b = 13)).reverse

/-- `rstrip_seq`: drop trailing `>`, LF and CR bytes. -/
def rstripSeq (l : List Nat) : List Nat :=
  (l.reverse.dropWhile (fun b => b = 62 || b = 10 || b = 13)).reverse

/-- `FastARecord` (header bytes without the leading `>`, raw sequence
possibly containing LF). -/
structure FastARecM where
  name : List Nat
  raw_seq : List Nat
  deriving DecidableEq, Repr

/-- `FastQRecord`. -/
structure FastQRecM where
  name : List Nat
  seq : List Nat
  comment : List Nat
  qual : List Nat
  deriving DecidableEq, Repr, Inhabited

/-- `FastARecord::seq()`: the raw payload is copied into a buffer
pre-filled with zeros, one LF-delimited segment at a time; the buffer is
shrunk to the copied length only when the payload does not end in LF, so
a payload that ends in LF keeps one zero byte per removed LF at the end.
The closed form below reproduces exactly that. -/
def rustSeq (raw : List Nat) : List Nat :=
  let core := raw.filter (fun b => b ≠ 10)
  if raw.getLast? = some 10 then core ++ List.replicate (raw.length - core.length) 0
  else core

/-- `FastARecord::read`.  `ok (record, n, rest)`: the record buffer, the
returned byte count (`0` at end of input) and the remaining stream.  The
guard on the record separator is Rust's
`if some != 1 && record_sep[0] != b'>'` with `some` the number of bytes
just read into a 1-byte buffer — in the branch where it is evaluated
`some = 1`, so the conjunction is kept verbatim (and is never true). -/
def fastaRead (s : List Nat) : Except Unit (FastARecM × Nat × List Nat) :=
  match s with
  | [] => .ok (⟨[], []⟩, 0, [])
  | b :: rest =>
    if 1 ≠ 1 ∧ b ≠ 62 then .error ()
    else
      let (l1, s1) := readLineM rest
      if l1 = [] then .ok (⟨[], []⟩, 0, s1)
      else
        let name := rstripNL l1
        let (rawPart, s2) := readUntilBefore62 s1
        if rawPart.length = 0 then .ok (⟨name, []⟩, 0, s2)
        else .ok (⟨name, rstripSeq rawPart⟩, 1 + l1.length + rawPart.length, s2)

/-- `FastQRecord::read`. -/
def fastqRead (s : List Nat) : Except Unit (FastQRecM × Nat × List Nat) :=
  let (l1, s1) := readLineM s
  if l1 = [] then .ok (default, 0, s1)
  else
    let name0 := rstripNL l1
    if name0 = [] then .error ()
    else if name0.head? = some 64 then
      let (l2, s2) := readLineM s1
      if l2 = [] then .error ()
      else
        let seqF := rstripNL l2
        let (l3, s3) := readLineM s2
        if l3 = [] then .error ()
        else
          let comment := rstripNL l3
          if comment.head? = some 43 then
            let (l4, s4) := readLineM s3
            if l4 = [] then .error ()
            else
              .ok (⟨name0.tail, seqF, comment, rstripNL l4⟩,
                   l1.length + l2.length + l3.length + l4.length, s4)
          else .error ()
    else .error ()

/-- `FastQRecord::comment()`: the stored comment line without its first
byte (the stored line always starts with `+` after a successful read). -/
def commentView (r : FastQRecM) : List Nat :=
  if 0 < r.comment.length then r.comment.tail else []

/-- Result of `FastX::peek`. -/
inductive PeekOut where
  | fasta
  | fastq
  | eofFmt
  | errFmt
  | panicked
  deriving DecidableEq, Repr

/-- `FastX::peek`: `fill_buf` then `buf[0]` — indexing an empty fill
buffer (empty input) panics. -/
def peekM : List Nat → PeekOut
  | [] => .panicked
  | b :: _ =>
    if b = 62 then .fasta
    else if b = 64 then .fastq
    else if b = 0 then .eofFmt
    else .errFmt

/-! ### BGZF decoder (src/bgzf.rs)

A well-formed BGZF file is a list of blocks; each block records its
compressed length in the file (`csize`, the `BSIZE + 1` bytes of the
gzip member) and its decompressed payload.  Header parsing and inflation
are not re-modelled: `read_next_block` on a well-formed file positioned
at a block boundary yields that block's payload (claim C2 quantifies
over well-formed streams only).  The underlying compressed-file position
is represented by the list of blocks at and after it (`rest`); a raw
seek resolves a byte offset to such a suffix with `suffixAt`.

`BgzfSt` carries the fields of `BgzfReader`: the decompressed buffer
`buf`, the cursor `bufPos`, `cup` (`current_uncompressed_pos`, the
running total of decompressed bytes, which `seek_uncompressed` does not
reset) and the `eof` flag (which `seek_uncompressed` does not clear). -/

structure Block where
  csize : Nat
  payload : List Nat
  deriving DecidableEq, Repr

structure BgzfSt where
  rest : List Block
  buf : List Nat
  bufPos : Nat
  cup : Nat
  eof : Bool
  deriving DecidableEq, Repr

/-- The suffix of the block list starting at compressed byte offset `c`;
`none` when `c` is not a block boundary (decoding from there fails). -/
def suffixAt : List Block → Nat → Option (List Block)
  | file, 0 => some file
  | [], _ + 1 => none
  | b :: bs, c + 1 =>
    if c + 1 < b.csize then none else suffixAt bs (c + 1 - b.csize)

/-- `BgzfReader::fill_buf`: serve the buffered bytes past `bufPos`,
decoding the next block when the buffer is exhausted; at end of input
set `eof` and serve nothing. -/
def fillBuf (st : BgzfSt) : List Nat × BgzfSt :=
  if st.buf.length ≤ st.bufPos then
    if st.eof then ([], st)
    else
      match st.rest with
      | [] => ([], { st with eof := true })
      | b :: bs =>
        (b.payload, { rest := bs, buf := b.payload, bufPos := 0,
                      cup := st.cup + b.payload.length, eof := st.eof })
  else (st.buf.drop st.bufPos, st)

/-- The `while total_read < buf.len()` loop of `Read for BgzfReader`.
Each pass copies at least one byte or stops, so the request size is
enough fuel; `k` is the not-yet-served byte count. -/
def bgzfReadGo : Nat → BgzfSt → Nat → List Nat × BgzfSt
  | _, st, 0 => ([], st)
  | 0, st, _ + 1 => ([], st)
  | fuel + 1, st, k + 1 =>
    match fillBuf st with
    | ([], st1) => ([], st1)
    | (a :: avail, st1) =>
      let t := min (a :: avail).length (k + 1)
      let chunk := (a :: avail).take t
      let st2 := { st1 with bufPos := st1.bufPos + t }
      let (more, st3) := bgzfReadGo fuel st2 (k + 1 - t)
      (chunk ++ more, st3)

/-- `BgzfReader::read` into a `k`-byte buffer: the bytes obtained and the
state after. -/
def bgzfRead (st : BgzfSt) (k : Nat) : List Nat × BgzfSt :=
  bgzfReadGo k st k

inductive BgzfSeekOut where
  | ok (pos : Nat) (st : BgzfSt)
  | err
  | panicked
  deriving DecidableEq, Repr

/-- The `while self.current_uncompressed_pos < uncompressed_pos` loop of
`seek_uncompressed`, followed by the cursor computation
`offset_in_block = uncompressed_pos - (cup - buf.len())` — a `u64`
subtraction that panics (debug) on underflow.  Each pass decodes one
block, so the remaining block list shrinks; reaching its end is the
`UnexpectedEof` error. -/
def seekLoop (u : Nat) : List Block → List Nat → Nat → Bool → BgzfSeekOut
  | rest, buf, cup, eofF =>
    if cup < u then
      match rest with
      | [] => .err
      | b :: bs => seekLoop u bs b.payload (cup + b.payload.length) eofF
    else
      if u < cup - buf.length then .panicked
      else .ok u { rest := rest, buf := buf,
                   bufPos := u - (cup - buf.length), cup := cup, eof := eofF }

/-- `BgzfReader::seek_uncompressed` over the well-formed file `file`:
GZI lookup, raw seek to the returned compressed offset, buffer reset
(`cup` and `eof` are NOT reset), then `seekLoop`. -/
def seekUncompressed (file : List Block) (gzi : List (Nat × Nat))
    (st : BgzfSt) (u : Nat) : BgzfSeekOut :=
  match getCompressedOffset gzi u with
  | none => .err
  | some c =>
    match suffixAt file c with
    | none => .err
    | some rest => seekLoop u rest [] st.cup st.eof

/-- The whole uncompressed stream of a well-formed BGZF file. -/
def streamOf (file : List Block) : List Nat :=
  (file.map Block.payload).flatten

/-- The fresh reader produced by `BgzfReader::with_index` (underlying
source at offset 0). -/
def bgzfStart (file : List Block) : BgzfSt :=
  { rest := file, buf := [], bufPos := 0, cup := 0, eof := false }

/-- `seek_uncompressed(u)` followed by a read of `k` bytes; `none` when
the seek does not succeed. -/
def seekThenRead (file : List Block) (gzi : List (Nat × Nat))
    (st : BgzfSt) (u k : Nat) : Option (List Nat) :=
  match seekUncompressed file gzi st u with
  | .ok _ st1 => some (bgzfRead st1 k).1
  | _ => none

/-! ### Indexed reader (src/indexed.rs)

`fetch_range` and `fetch_entry` drive the BGZF decoder through
`seek_uncompressed` and `read`.  Here the decoder is idealised as a
seekable view of the uncompressed stream `data` (a seek to offset `o`
positions it at `o`; a `k`-byte read returns the next
`min(k, remaining)` bytes): the decoder's own fidelity is settled by the
`BgzfSt` development above, and the claims against indexed.rs concern
its logic over whatever byte stream the decoder serves. -/

inductive FetchOut where
  | ok (bytes : List Nat)
  | err
  | panicked
  deriving DecidableEq, Repr

/-- The `while remaining > 0` loop of `fetch_range`.  Arguments:
remaining byte count, reader position, current column, the entry's
`line_bases`; every pass reads at least one byte (a zero-byte read is
the `UnexpectedEof` error), so `remaining` is enough fuel.  After a full
line, one byte is consumed and must be LF. -/
def frGo (data : List Nat) : Nat → Nat → Nat → Nat → Nat → Except Unit (List Nat)
  | _, 0, _, _, _ => .ok []
  | 0, _ + 1, _, _, _ => .error ()
  | fuel + 1, remaining + 1, pos, col, lb =>
    let inLine := min (remaining + 1) (lb - col)
    let got := (data.drop pos).take inLine
    let n := got.length
    if n = 0 then .error ()
    else
      let cont := fun (tailRes : Except Unit (List Nat)) =>
        match tailRes with
        | .error e => .error e
        | .ok v => .ok (got ++ v)
      if lb ≤ col + n ∧ 0 < remaining + 1 - n then
        match (data.drop (pos + n)).head? with
        | none => .error ()
        | some b =>
          if b = 10 then cont (frGo data fuel (remaining + 1 - n) (pos + n + 1) 0 lb)
          else .error ()
      else cont (frGo data fuel (remaining + 1 - n) (pos + n) 0 lb)

/-- `IndexedFastXReader::fetch_range` over the uncompressed stream
`data`.  `.panicked` marks the two in-every-sense-fatal spots: the `u64`
underflow of `clamped_end - start` when `end < start < length`, and the
division by zero inside `offset_for_position` when `line_bases = 0`. -/
def fetchRange (entries : List FaiEntry) (data : List Nat)
    (name : List Nat) (start endp : Nat) : FetchOut :=
  match lookupFai entries name with
  | none => .err
  | some entry =>
    if entry.length ≤ start then .err
    else
      let clampedEnd := min endp entry.length
      if clampedEnd < start then .panicked
      else
        let region := clampedEnd - start
        match offsetForPosition entry start with
        | none => .panicked
        | some startOffset =>
          match frGo data region region startOffset (start % entry.line_bases)
              entry.line_bases with
          | .ok v => .ok v
          | .error _ => .err

/-- The sequence-collecting loop of `fetch_entry`: take bytes until
`need` non-LF bytes have been kept (LF bytes are kept but not counted),
stopping immediately once the count is reached or the stream ends. -/
def takeBases : Nat → List Nat → List Nat
  | _, [] => []
  | 0, _ :: _ => []
  | need + 1, b :: rest =>
    if b = 10 then 10 :: takeBases (need + 1) rest
    else if need = 0 then [b]
    else b :: takeBases need rest

/-- `IndexedFastXReader::fetch_entry` over the uncompressed stream
`data`: seek to `entry.offset`, read single bytes into `header` until LF
or end of input, then collect `entry.length` non-LF bytes into
`raw_seq`. -/
def fetchEntry (data : List Nat) (e : FaiEntry) : FastARecM :=
  let s := data.drop e.offset
  let header := s.takeWhile (fun b => b ≠ 10)
  let afterHeader := (s.dropWhile (fun b => b ≠ 10)).drop 1
  { name := header, raw_seq := takeBases e.length afterHeader }

/-- `IndexedFastXReader::fetch`: FAI lookup then `fetch_entry`. -/
def fetchFastA (entries : List FaiEntry) (data : List Nat)
    (name : List Nat) : Option FastARecM :=
  match lookupFai entries name with
  | none => none
  | some entry => some (fetchEntry data entry)

/-! ### Concrete instances used by the theorems -/

/-- The GZI entry list of spec scenario 4. -/
def gziExample : List (Nat × Nat) := [(0, 0), (100, 10000), (250, 20000), (400, 30000)]

/-- A 24-byte GZI file whose entry count field holds `2 ^ 60`
(little-endian bytes `0,…,0,16`). -/
def gziBadBuffer : List Nat := [0, 0, 0, 0, 0, 0, 0, 16] ++ List.replicate 16 0

/-- A well-formed three-block BGZF file: payloads `ABCD`, `EFGH`, `IJKL`,
each block 30 compressed bytes. -/
def bgzfExFile : List Block :=
  [⟨30, [65, 66, 67, 68]⟩, ⟨30, [69, 70, 71, 72]⟩, ⟨30, [73, 74, 75, 76]⟩]

/-- The exact GZI index of `bgzfExFile`: every block's
(compressed start, uncompressed start). -/
def bgzfExGzi : List (Nat × Nat) := [(0, 0), (30, 4), (60, 8)]

/-- Uncompressed archive content `>x\nAGTC\n`. -/
def idxData : List Nat := [62, 120, 10, 65, 71, 84, 67, 10]

/-- The FAI entry for the sequence `x` of `idxData`: length 4, the first
sequence byte at offset 3, 4 bases per 5-byte line. -/
def idxEntry : FaiEntry := ⟨[120], 4, 3, 4, 5⟩

/-- Entry of spec scenario 5 (`w`, length 30, 10 bases per 11-byte line)
and its stream `AAAAAAAAAA\nBBBBBBBBBB\nCCCCCCCCCC\n`. -/
def wrapEntry : FaiEntry := ⟨[119], 30, 0, 10, 11⟩

def wrapData : List Nat :=
  List.replicate 10 65 ++ [10] ++ List.replicate 10 66 ++ [10] ++
    List.replicate 10 67 ++ [10]

/-! ### C10 — GZI loader bounds (code bug)

The loader computes `expected_size = 8 + num_entries * 16` in `usize`:
for `num_entries = 2 ^ 60` the product wraps to 0, the length check
degenerates to `len ≥ 8` and passes on a 24-byte file, after which the
loader panics (capacity overflow pre-allocating the entry vector in
release; the multiplication overflow itself in debug) instead of
returning the parse error the claim promises. -/

/-- C10: on the 24-byte buffer whose count field is `2 ^ 60`, both length
checks pass (`expected_size` wraps to 8) yet the loader panics rather
than returning a parsed index or a parse error. -/
theorem C10_gzi_loader_eval :
    leVal (gziBadBuffer.take 8) = 2 ^ 60 ∧
    gziBadBuffer.length = 24 ∧
    (8 + (2 ^ 60 * 16) % 2 ^ 64) % 2 ^ 64 = 8 ∧
    gziFromBytes gziBadBuffer = .panic := by decide

/-! ### C6 — FASTA record-separator check (code bug)

`FastARecord::read` guards the record separator with
`if some != 1 && record_sep[0] != b'>'`, but in that branch `some == 1`
always, so the guard never fires: a stream whose first byte is not `>`
is parsed as if it were, with no error. -/

/-- C6: `read` on `xyz\nAC` (first byte `x`, not `>`) succeeds, consuming
the whole input and returning 6, instead of the malformed-input error the
claim requires; the zero-bytes-available case does return 0. -/
theorem C6_fasta_read_eval :
    fastaRead [120, 121, 122, 10, 65, 67] =
      .ok (⟨[121, 122], [65, 67]⟩, 6, []) ∧
    fastaRead [120, 121, 122, 10, 65, 67] ≠ .error () ∧
    fastaRead [] = .ok (⟨[], []⟩, 0, []) := by decide

/-! ### C1, C3 — `fetch` reads the first sequence line as the header
(code bug)

`fetch_entry` seeks to `entry.offset`, which the FAI format defines as
the first *sequence* byte, and then consumes up to the next LF as if it
were a header line.  The returned record's name is the first wrapped
sequence line and its raw sequence starts one line late (here: at end of
input, so it is empty). -/

/-- C1: on archive `>x\nAGTC\n` with entry `(x, 4, 3, 4, 5)`,
`fetch_range(x, 0, 4)` returns `AGTC` while the newline-free sequence of
`fetch(x)` is empty, so its slice `[0..4]` differs from the range
fetch. -/
theorem C1_fetch_range_vs_fetch_eval :
    fetchRange [idxEntry] idxData [120] 0 4 = .ok [65, 71, 84, 67] ∧
    (fetchFastA [idxEntry] idxData [120]).map
      (fun r => ((rustSeq r.raw_seq).drop 0).take 4) = some [] ∧
    ([65, 71, 84, 67] : List Nat) ≠ [] := by decide

/-- C3: on the same archive, `fetch(x)` returns name `AGTC` (the first
sequence line) instead of the entry's name `x`, and an empty raw
sequence instead of the `entry.length = 4` non-terminator bytes
`AGTC` that start at the entry's offset. -/
theorem C3_fetch_entry_eval :
    fetchFastA [idxEntry] idxData [120] = some ⟨[65, 71, 84, 67], []⟩ ∧
    idxEntry.name = [120] ∧
    ([65, 71, 84, 67] : List Nat) ≠ [120] ∧
    ((idxData.drop idxEntry.offset).filter (fun b => b ≠ 10)).take idxEntry.length =
      [65, 71, 84, 67] ∧
    ([] : List Nat) ≠ [65, 71, 84, 67] := by decide

/-! ### C2 — BGZF seek accounting (code bug)

`seek_uncompressed` repositions the compressed source at the sought
block but neither resets `current_uncompressed_pos` (a running total of
all bytes ever decompressed) nor accounts for the sought block's base:
its catch-up loop adds the decoded payload lengths to that stale total.
On a fresh reader, seeking into block `i > 0` therefore decodes `i`
extra blocks and places the cursor one block too far. -/

/-- C2: on the three-block file with its exact GZI index, a fresh
reader's `seek_uncompressed(6)` followed by a 2-byte read yields `KL`
(stream bytes 10..12) instead of `stream[6..8] = GH`. -/
theorem C2_seek_then_read_eval :
    seekThenRead bgzfExFile bgzfExGzi (bgzfStart bgzfExFile) 6 2 =
      some [75, 76] ∧
    ((streamOf bgzfExFile).drop 6).take 2 = [71, 72] ∧
    ([75, 76] : List Nat) ≠ [71, 72] := by decide

/-! ### C5 — FAI position arithmetic (corrected)

The loader accepts entries with `line_bases = 0` (the only validation is
`line_width ≥ line_bases`), and on such an entry `offset_for_position`
divides by zero and panics, so the claim's equation cannot hold for
every loaded entry.  With `line_bases > 0` the equation holds (in the
`u64` arithmetic of the code). -/

/-- C5 counterexample: the line `z\t1\t0\t0\t0` is accepted by the
loader and yields an entry with `length = 1` and `line_bases = 0`, on
which `offset_for_position(0)` panics (returns no value) instead of
satisfying the claimed equation. -/
theorem C5_offset_for_position_cex :
    parseFaiLine ("z\t1\t0\t0\t0".data) = .ok (some ⟨[122], 1, 0, 0, 0⟩) ∧
    offsetForPosition ⟨[122], 1, 0, 0, 0⟩ 0 = none := by decide

/-! ### C7 — format-detection peek (corrected)

`peek` calls `fill_buf` and immediately indexes `buf[0]`: on an empty
input the fill buffer is empty and the indexing panics, so "empty input
⇒ end-of-input" fails; the byte dispatch itself behaves as described and
consumes nothing (the model is a pure function of the stream). -/

/-- C7 counterexample: on the empty input `peek` panics instead of
reporting end-of-input. -/
theorem C7_peek_cex : peekM [] = .panicked ∧ PeekOut.panicked ≠ PeekOut.eofFmt := by
  decide

/-- C7 (amended): `peek` yields FASTA exactly on a leading `>`, FASTQ
exactly on `@`, end-of-input exactly on a leading null byte, an error
exactly on any other leading byte — and panics exactly on empty input
(zero bytes available), instead of the end-of-input the claim states. -/
theorem C7_peek_amended (s : List Nat) :
    (peekM s = .fasta ↔ s.head? = some 62) ∧
    (peekM s = .fastq ↔ s.head? = some 64) ∧
    (peekM s = .eofFmt ↔ s.head? = some 0) ∧
    (peekM s = .panicked ↔ s = []) ∧
    (peekM s = .errFmt ↔ ∃ b rest, s = b :: rest ∧ b ≠ 62 ∧ b ≠ 64 ∧ b ≠ 0) := by
  cases s with
  | nil => simp [peekM]
  | cons b rest =>
    simp only [peekM, List.head?_cons, Option.some.injEq, List.cons.injEq]
    split_ifs with h1 h2 h3 <;> simp_all

theorem C7_peek_amended_witness : peekM [62, 65] = .fasta :=
  (C7_peek_amended [62, 65]).1.mpr rfl

/-! ### C8 — FASTQ record invariants (corrected)

The parser strips exactly one `@` from the header and keeps the `+` line
verbatim, so a header beginning `@@` leaves a stored name that begins
with `@`, and a separator line beginning `++` leaves a comment view that
begins with `+`.  The trailing-terminator stripping of sequence and
quality holds unconditionally. -/

/-- The head of whatever `dropWhile p` returns never satisfies `p`. -/
theorem head?_dropWhile_not (p : Nat → Bool) :
    ∀ (l : List Nat) (b : Nat), (l.dropWhile p).head? = some b → p b = false := by
  intro l
  induction l with
  | nil => intro b h; simp [List.dropWhile] at h
  | cons c rest ih =>
    intro b h
    by_cases hc : p c
    · rw [List.dropWhile_cons_of_pos hc] at h
      exact ih b h
    · rw [List.dropWhile_cons_of_neg hc] at h
      simp at h
      subst h
      simpa using hc

/-- A stripped line never ends in LF or CR. -/
theorem rstripNL_not_nl (l : List Nat) :
    (rstripNL l).getLast? ≠ some 10 ∧ (rstripNL l).getLast? ≠ some 13 := by
  unfold rstripNL
  rw [List.getLast?_reverse]
  constructor <;> intro h <;>
    have := head?_dropWhile_not (fun b => b = 10 || b = 13) l.reverse _ h <;> simp at this

/-- C8 counterexample: the record `@@a\nAC\n+\n!!\n` is read
successfully and its stored name `@a` begins with `@`, violating the
claimed invariant. -/
theorem C8_fastq_invariants_cex :
    fastqRead [64, 64, 97, 10, 65, 67, 10, 43, 10, 33, 33, 10] =
      .ok (⟨[64, 97], [65, 67], [43], [33, 33]⟩, 12, []) ∧
    ([64, 97] : List Nat).head? = some 64 := by decide

/-- C8 (amended): after a successful FASTQ `read`, neither `seq` nor
`qual` ends with LF or CR; the stored name begins with `@` only when the
header line began with `@@` (one `@` is stripped), and the comment view
begins with `+` only when the stored separator line began with `++`. -/
theorem C8_fastq_invariants_amended (s : List Nat) (r : FastQRecM) (n : Nat) (rest : List Nat)
    (h : fastqRead s = .ok (r, n, rest)) :
    r.seq.getLast? ≠ some 10 ∧ r.seq.getLast? ≠ some 13 ∧
    r.qual.getLast? ≠ some 10 ∧ r.qual.getLast? ≠ some 13 ∧
    (r.name.head? = some 64 → (rstripNL (readLineM s).1).take 2 = [64, 64]) ∧
    ((commentView r).head? = some 43 → r.comment.take 2 = [43, 43]) := by
  rcases hE1 : readLineM s with ⟨l1, s1⟩
  simp only [fastqRead, hE1] at h
  split at h
  · simp only [Except.ok.injEq, Prod.mk.injEq] at h
    obtain ⟨hr, _, _⟩ := h
    subst hr
    refine ⟨by simp [default], by simp [default], by simp [default], by simp [default], ?_, ?_⟩
    · intro hn; simp [default] at hn
    · intro hc; simp [commentView, default] at hc
  · split at h
    · exact absurd h (by simp)
    · split at h
      · rcases hE2 : readLineM s1 with ⟨l2, s2⟩
        simp only [hE2] at h
        split at h
        · exact absurd h (by simp)
        · rcases hE3 : readLineM s2 with ⟨l3, s3⟩
          simp only [hE3] at h
          split at h
          · exact absurd h (by simp)
          · split at h
            · rcases hE4 : readLineM s3 with ⟨l4, s4⟩
              simp only [hE4] at h
              split at h
              · exact absurd h (by simp)
              · simp only [Except.ok.injEq, Prod.mk.injEq] at h
                obtain ⟨hr, _, _⟩ := h
                subst hr
                have hname0 : (rstripNL l1).head? = some 64 := by assumption
                have hcomH : (rstripNL l3).head? = some 43 := by assumption
                refine ⟨(rstripNL_not_nl l2).1, (rstripNL_not_nl l2).2,
                        (rstripNL_not_nl l4).1, (rstripNL_not_nl l4).2, ?_, ?_⟩
                · intro hn
                  simp only at hn
                  show List.take 2 (rstripNL l1) = [64, 64]
                  cases hm : rstripNL l1 with
                  | nil => rw [hm] at hname0; simp at hname0
                  | cons a t =>
                    rw [hm] at hname0 hn
                    simp only [List.head?_cons, Option.some.injEq] at hname0
                    simp only [List.tail_cons] at hn
                    cases t with
                    | nil => simp at hn
                    | cons b t2 =>
                      simp only [List.head?_cons, Option.some.injEq] at hn
                      simp [hname0, hn]
                · intro hc
                  show List.take 2 (rstripNL l3) = [43, 43]
                  cases hm : rstripNL l3 with
                  | nil => rw [hm] at hcomH; simp at hcomH
                  | cons a t =>
                    rw [hm] at hcomH hc
                    simp only [List.head?_cons, Option.some.injEq] at hcomH
                    simp only [commentView, List.length_cons, List.tail_cons] at hc
                    rw [if_pos (by omega)] at hc
                    cases t with
                    | nil => simp at hc
                    | cons b t2 =>
                      simp only [List.head?_cons, Option.some.injEq] at hc
                      simp [hcomH, hc]
            · exact absurd h (by simp)
      · exact absurd h (by simp)

theorem C8_fastq_invariants_amended_witness :
    (⟨[97], [65, 67], [43, 120], [33, 33]⟩ : FastQRecM).seq.getLast? ≠ some 10 :=
  (C8_fastq_invariants_amended [64, 97, 10, 65, 67, 10, 43, 120, 10, 33, 33, 10]
    ⟨[97], [65, 67], [43, 120], [33, 33]⟩ 12 [] (by decide)).1

/-! ### C9 — totality of `fetch_range` (corrected)

After the `start < length` check, `fetch_range` computes
`min(end, length) - start` with an unchecked `u64` subtraction, which
underflows whenever `end < start` (the saturating `region_length` helper
on `FaiEntry` is not used here), and `offset_for_position(start)` /
`start % line_bases`, which divide by zero when the entry's
`line_bases = 0` (such entries pass the loader's only validation).
Under `end ≥ start` and `line_bases > 0` the operation is total. -/

/-- C9 counterexample: with entry `(x, 10, 0, 80, 81)` the call
`fetch_range(x, 5, 2)` (an `end < start < length` query) underflows and
panics; with the loadable entry `(z, 1, 0, 0, 0)` the call
`fetch_range(z, 0, 1)` divides by zero and panics.  Neither returns Ok
or Err. -/
theorem C9_fetch_range_total_cex :
    fetchRange [⟨[120], 10, 0, 80, 81⟩] (List.replicate 30 65) [120] 5 2 = .panicked ∧
    fetchRange [⟨[122], 1, 0, 0, 0⟩] [65] [122] 0 1 = .panicked := by decide

/-- C9 (amended): for every index, stream, name and positions with
`start ≤ end`, and whenever the looked-up entry has `line_bases > 0`,
`fetch_range` evaluates totally to Ok or Err (never panics); in
particular `min(end, length) - start` cannot underflow then. -/
theorem C9_fetch_range_total_amended (entries : List FaiEntry) (data : List Nat)
    (name : List Nat) (start endp : Nat) (hse : start ≤ endp)
    (hlb : ∀ e, lookupFai entries name = some e → 0 < e.line_bases) :
    fetchRange entries data name start endp ≠ .panicked := by
  unfold fetchRange
  cases hl : lookupFai entries name with
  | none => simp
  | some entry =>
    dsimp only
    have hlbe := hlb entry hl
    by_cases hlen : entry.length ≤ start
    · simp [hlen]
    · push_neg at hlen
      rw [if_neg (by omega)]
      have hmin : start ≤ min endp entry.length := le_min hse (le_of_lt hlen)
      rw [if_neg (not_lt.mpr hmin)]
      unfold offsetForPosition
      rw [if_neg (by omega)]
      split
      · rename_i heq
        simp at heq
      · split <;> simp

theorem C9_fetch_range_total_amended_witness :
    fetchRange [⟨[119], 30, 0, 10, 11⟩] wrapData [119] 5 15 ≠ .panicked :=
  C9_fetch_range_total_amended [⟨[119], 30, 0, 10, 11⟩] wrapData [119] 5 15
    (by decide)
    (fun e he => by rw [← Option.some.inj he]; decide)

/-- Every entry a successfully parsed FAI line produces satisfies
`line_bases ≤ line_width` (the loader's explicit validation). -/
theorem parseFaiLine_lb_le_lw (cs : List Char) (e : FaiEntry)
    (h : parseFaiLine cs = .ok (some e)) : e.line_bases ≤ e.line_width := by
  unfold parseFaiLine at h
  dsimp only at h
  split at h
  · simp at h
  · split at h
    · simp at h
    · split at h
      · simp at h
      · split at h
        · split at h
          · simp at h
          · simp only [Except.ok.injEq, Option.some.injEq] at h
            subst h
            simp only
            omega
        · simp at h

/-- Every entry of a successfully loaded FAI index satisfies
`line_bases ≤ line_width`. -/
theorem faiLoadLines_lb_le_lw :
    ∀ (lines : List (List Char)) (es : List FaiEntry),
      faiLoadLines lines = .ok es → ∀ e ∈ es, e.line_bases ≤ e.line_width := by
  intro lines
  induction lines with
  | nil => intro es h e he; simp [faiLoadLines] at h; subst h; simp at he
  | cons l rest ih =>
    intro es h e he
    unfold faiLoadLines at h
    split at h
    · simp at h
    · exact ih es h e he
    · rename_i entry hpl
      split at h
      · simp at h
      · rename_i es2 hrest
        simp only [Except.ok.injEq] at h
        subst h
        rcases List.mem_cons.mp he with rfl | hmem
        · exact parseFaiLine_lb_le_lw l e hpl
        · exact ih es2 hrest e hmem

/-- For `line_bases > 0`, `offset_for_position` equals the spec's
formula (both read in the code's `u64` arithmetic). -/
theorem offsetForPosition_formula (e : FaiEntry) (k : Nat)
    (hlb : 0 < e.line_bases) (hk : k < e.length) :
    offsetForPosition e k =
      some ((e.offset + k / e.line_bases * e.line_width + k % e.line_bases) % W64) := by
  clear hk
  unfold offsetForPosition
  rw [if_neg (by omega)]
  dsimp only
  simp only [W64]
  generalize k / e.line_bases * e.line_width = m
  generalize k % e.line_bases = r
  congr 1
  omega

/-- C5 (amended): every loaded FAI entry satisfies
`line_width ≥ line_bases`; for every entry with `line_bases > 0` and
every position `k < length`,
`offset_for_position(k) = offset + (k / line_bases)·line_width +
(k mod line_bases)` (in the code's `u64` arithmetic) — for a loaded
entry with `line_bases = 0` (which the loader accepts) the computation
panics instead; the spec's concrete entry
`(length 1000, offset 100, line_bases 80, line_width 81)` maps positions
0, 79, 80, 100, 160 to 100, 179, 181, 201, 262. -/
theorem C5_offset_for_position_amended :
    (∀ (lines : List (List Char)) (es : List FaiEntry),
       faiLoadLines lines = .ok es → ∀ e ∈ es, e.line_bases ≤ e.line_width) ∧
    (∀ (e : FaiEntry) (k : Nat), 0 < e.line_bases → k < e.length →
       offsetForPosition e k =
         some ((e.offset + k / e.line_bases * e.line_width + k % e.line_bases) % W64)) ∧
    (offsetForPosition ⟨[], 1000, 100, 80, 81⟩ 0 = some 100 ∧
     offsetForPosition ⟨[], 1000, 100, 80, 81⟩ 79 = some 179 ∧
     offsetForPosition ⟨[], 1000, 100, 80, 81⟩ 80 = some 181 ∧
     offsetForPosition ⟨[], 1000, 100, 80, 81⟩ 100 = some 201 ∧
     offsetForPosition ⟨[], 1000, 100, 80, 81⟩ 160 = some 262) :=
  ⟨faiLoadLines_lb_le_lw, offsetForPosition_formula, by decide⟩

theorem C5_offset_for_position_amended_witness :
    offsetForPosition ⟨[], 1000, 100, 80, 81⟩ 5 =
      some ((100 + 5 / 80 * 81 + 5 % 80) % W64) :=
  C5_offset_for_position_amended.2.1 ⟨[], 1000, 100, 80, 81⟩ 5 (by decide) (by decide)

/-! ### C4 — GZI lookup (confirmed)

`get_compressed_offset` is proved against the binary-search
specification: on an index whose uncompressed offsets are strictly
increasing (ties would make "the matching entry" and "the immediately
preceding entry" ambiguous; real indexes list each block once), an exact
hit returns that entry's compressed offset, a miss returns the
immediately preceding entry's, a query before the first entry returns
the first entry's, after the last the last entry's (the predecessor case
with `i + 1 = length` covers it), and `none` is returned exactly for the
empty index.  The spec's scenario-4 table is checked by evaluation. -/

theorem pairwise_getD_lt (xs : List Nat) (hs : xs.Pairwise (· < ·)) :
    ∀ i j, i < j → j < xs.length → xs.getD i 0 < xs.getD j 0 := by
  induction xs with
  | nil => intro i j _ hj; simp at hj
  | cons a rest ih =>
    rcases List.pairwise_cons.mp hs with ⟨ha, hrest⟩
    intro i j hij hj
    cases i with
    | zero =>
      cases j with
      | zero => omega
      | succ j2 =>
        simp only [List.getD_cons_zero, List.getD_cons_succ]
        have hjr : j2 < rest.length := by simpa using hj
        have hmem : rest.getD j2 0 ∈ rest := by
          rw [List.getD_eq_getElem rest 0 hjr]
          exact List.getElem_mem hjr
        exact ha _ hmem
    | succ i2 =>
      cases j with
      | zero => omega
      | succ j2 =>
        simp only [List.getD_cons_succ]
        exact ih hrest i2 j2 (by omega) (by simpa using hj)

theorem bsGo_spec (xs : List Nat) (t : Nat) (hs : xs.Pairwise (· < ·)) :
    ∀ fuel left size, size ≤ fuel → left + size ≤ xs.length →
    (∀ j, j < left → xs.getD j 0 < t) →
    (∀ j, left + size ≤ j → j < xs.length → t < xs.getD j 0) →
    (∀ i, bsGo xs t fuel left size = .ok i → i < xs.length ∧ xs.getD i 0 = t) ∧
    (∀ i, bsGo xs t fuel left size = .error i →
       i ≤ xs.length ∧
       (∀ j, j < i → xs.getD j 0 < t) ∧
       (∀ j, i ≤ j → j < xs.length → t < xs.getD j 0)) := by
  intro fuel
  induction fuel with
  | zero =>
    intro left size hsz hlen hlo hhi
    interval_cases size
    constructor
    · intro i hok; simp [bsGo] at hok
    · intro i herr
      simp only [bsGo, Except.error.injEq] at herr
      subst herr
      exact ⟨by omega, hlo, fun j hj1 hj2 => hhi j (by omega) hj2⟩
  | succ fuel ih =>
    intro left size hsz hlen hlo hhi
    cases size with
    | zero =>
      constructor
      · intro i hok; simp [bsGo] at hok
      · intro i herr
        simp only [bsGo, Except.error.injEq] at herr
        subst herr
        exact ⟨by omega, hlo, fun j hj1 hj2 => hhi j (by omega) hj2⟩
    | succ sz =>
      have hmidlt : left + (sz + 1) / 2 < left + (sz + 1) := by omega
      have hmidlen : left + (sz + 1) / 2 < xs.length := by omega
      by_cases hvlt : xs.getD (left + (sz + 1) / 2) 0 < t
      · -- search right half
        have hrec := ih (left + (sz + 1) / 2 + 1) (left + sz - (left + (sz + 1) / 2))
          (by omega) (by omega)
          (fun j hj => by
            rcases Nat.lt_or_ge j (left + (sz + 1) / 2) with hj2 | hj2
            · calc xs.getD j 0 < xs.getD (left + (sz + 1) / 2) 0 :=
                    pairwise_getD_lt xs hs j _ hj2 hmidlen
                _ < t := hvlt
            · have : j = left + (sz + 1) / 2 := by omega
              rw [this]; exact hvlt)
          (fun j hj1 hj2 => hhi j (by omega) hj2)
        constructor
        · intro i hok
          apply hrec.1
          rw [← hok]
          simp only [bsGo]
          rw [if_pos hvlt]
        · intro i herr
          apply hrec.2
          rw [← herr]
          simp only [bsGo]
          rw [if_pos hvlt]
      · by_cases htlt : t < xs.getD (left + (sz + 1) / 2) 0
        · -- search left half
          have hrec := ih left ((sz + 1) / 2)
            (by omega) (by omega) hlo
            (fun j hj1 hj2 => by
              rcases Nat.lt_or_ge j (left + (sz + 1) / 2) with hj3 | hj3
              · omega
              · rcases Nat.eq_or_lt_of_le hj3 with hj4 | hj4
                · rw [← hj4]; exact htlt
                · calc t < xs.getD (left + (sz + 1) / 2) 0 := htlt
                    _ < xs.getD j 0 := pairwise_getD_lt xs hs _ j hj4 hj2)
          constructor
          · intro i hok
            apply hrec.1
            rw [← hok]
            simp only [bsGo]
            rw [if_neg hvlt, if_pos htlt]
            congr 1
            omega
          · intro i herr
            apply hrec.2
            rw [← herr]
            simp only [bsGo]
            rw [if_neg hvlt, if_pos htlt]
            congr 1
            omega
        · -- exact hit
          have hveq : xs.getD (left + (sz + 1) / 2) 0 = t := by omega
          constructor
          · intro i hok
            simp only [bsGo] at hok
            rw [if_neg hvlt, if_neg htlt] at hok
            simp only [Except.ok.injEq] at hok
            subst hok
            exact ⟨hmidlen, hveq⟩
          · intro i herr
            simp only [bsGo] at herr
            rw [if_neg hvlt, if_neg htlt] at herr
            simp at herr

theorem binarySearch_spec (xs : List Nat) (t : Nat) (hs : xs.Pairwise (· < ·)) :
    (∀ i, binarySearch xs t = .ok i → i < xs.length ∧ xs.getD i 0 = t) ∧
    (∀ i, binarySearch xs t = .error i →
       i ≤ xs.length ∧ (∀ j, j < i → xs.getD j 0 < t) ∧
       (∀ j, i ≤ j → j < xs.length → t < xs.getD j 0)) :=
  bsGo_spec xs t hs xs.length 0 xs.length le_rfl (by omega)
    (fun j hj => absurd hj (Nat.not_lt_zero j))
    (fun j hj1 hj2 => absurd hj2 (by omega))

theorem getD_map_snd (l : List (Nat × Nat)) :
    ∀ j, j < l.length → (l.map Prod.snd).getD j 0 = (l.getD j (0, 0)).2 := by
  induction l with
  | nil => intro j hj; simp at hj
  | cons a rest ih =>
    intro j hj
    cases j with
    | zero => simp
    | succ j2 =>
      simp only [List.map_cons, List.getD_cons_succ]
      exact ih j2 (by simpa using hj)

theorem getLast?_eq_getD (l : List (Nat × Nat)) (h : l ≠ []) :
    l.getLast? = some (l.getD (l.length - 1) (0, 0)) := by
  induction l with
  | nil => exact absurd rfl h
  | cons a rest ih =>
    cases rest with
    | nil => simp
    | cons b rest2 =>
      rw [List.getLast?_cons_cons, ih (by simp)]
      congr 1

theorem gzi_none_iff (entries : List (Nat × Nat)) (u : Nat) :
    getCompressedOffset entries u = none ↔ entries = [] := by
  constructor
  · intro h
    by_contra hne
    unfold getCompressedOffset at h
    rw [if_neg (by simpa [List.isEmpty_iff] using hne)] at h
    split at h
    · simp at h
    · simp at h
    · split at h
      · rw [getLast?_eq_getD entries hne] at h
        simp at h
      · simp at h
  · intro h
    subst h
    rfl

theorem gzi_exact (entries : List (Nat × Nat)) (u c : Nat)
    (hs : (entries.map Prod.snd).Pairwise (· < ·)) (hmem : (c, u) ∈ entries) :
    getCompressedOffset entries u = some c := by
  have hne : entries ≠ [] := by intro h; subst h; simp at hmem
  obtain ⟨⟨k, hk⟩, hget⟩ := List.mem_iff_get.mp hmem
  have hkm : k < (entries.map Prod.snd).length := by simpa using hk
  have hsndk : (entries.map Prod.snd).getD k 0 = u := by
    rw [getD_map_snd entries k hk, List.getD_eq_get entries (0, 0) hk, hget]
  cases hbs : binarySearch (entries.map Prod.snd) u with
  | error i =>
    have hspec := (binarySearch_spec _ u hs).2 i hbs
    rcases Nat.lt_or_ge k i with hki | hki
    · have hx := hspec.2.1 k hki
      rw [hsndk] at hx
      omega
    · have hx := hspec.2.2 k hki hkm
      rw [hsndk] at hx
      omega
  | ok i =>
    have hspec := (binarySearch_spec _ u hs).1 i hbs
    have hik : i = k := by
      by_contra hne2
      rcases Nat.lt_or_ge i k with h1 | h1
      · have hx := pairwise_getD_lt _ hs i k h1 hkm
        rw [hsndk, hspec.2] at hx
        omega
      · have h2 : k < i := by omega
        have hx := pairwise_getD_lt _ hs k i h2 hspec.1
        rw [hsndk, hspec.2] at hx
        omega
    subst hik
    unfold getCompressedOffset
    rw [if_neg (by simpa [List.isEmpty_iff] using hne), hbs]
    show some (entries.getD i (0, 0)).1 = some c
    rw [List.getD_eq_get entries (0, 0) hk, hget]

theorem gzi_pred (entries : List (Nat × Nat)) (u i : Nat)
    (hs : (entries.map Prod.snd).Pairwise (· < ·)) (hi : i < entries.length)
    (hlt : (entries.getD i (0, 0)).2 < u)
    (hnext : i + 1 = entries.length ∨ u < (entries.getD (i + 1) (0, 0)).2) :
    getCompressedOffset entries u = some (entries.getD i (0, 0)).1 := by
  have hne : entries ≠ [] := by intro h; subst h; simp at hi
  have him : i < (entries.map Prod.snd).length := by simpa using hi
  have hsndi : (entries.map Prod.snd).getD i 0 = (entries.getD i (0, 0)).2 :=
    getD_map_snd entries i hi
  cases hbs : binarySearch (entries.map Prod.snd) u with
  | ok j =>
    exfalso
    have hspec := (binarySearch_spec _ u hs).1 j hbs
    have hjlen : j < entries.length := by simpa using hspec.1
    rcases Nat.lt_or_ge j (i + 1) with h1 | h1
    · rcases Nat.eq_or_lt_of_le (Nat.lt_succ_iff.mp h1) with h2 | h2
      · subst h2
        rw [hspec.2] at hsndi
        omega
      · have hx := pairwise_getD_lt _ hs j i h2 him
        rw [hspec.2, hsndi] at hx
        omega
    · cases hnext with
      | inl hl => omega
      | inr hr =>
        have hi1 : i + 1 < entries.length := by omega
        have hi1m : i + 1 < (entries.map Prod.snd).length := by simpa using hi1
        have hsnd1 : (entries.map Prod.snd).getD (i + 1) 0 = (entries.getD (i + 1) (0, 0)).2 :=
          getD_map_snd entries (i + 1) hi1
        rcases Nat.eq_or_lt_of_le h1 with h2 | h2
        · subst h2
          rw [hspec.2] at hsnd1
          omega
        · have hx := pairwise_getD_lt _ hs (i + 1) j h2 hspec.1
          rw [hspec.2, hsnd1] at hx
          omega
  | error e =>
    have hspec := (binarySearch_spec _ u hs).2 e hbs
    have helen : e ≤ entries.length := by simpa using hspec.1
    have he1 : i < e := by
      by_contra hcon
      push_neg at hcon
      have hx := hspec.2.2 i hcon him
      rw [hsndi] at hx
      omega
    have he2 : e ≤ i + 1 := by
      by_contra hcon
      push_neg at hcon
      have hi1 : i + 1 < entries.length := by omega
      have hx := hspec.2.1 (i + 1) hcon
      rw [getD_map_snd entries (i + 1) hi1] at hx
      cases hnext with
      | inl hl => omega
      | inr hr => omega
    have he : e = i + 1 := by omega
    subst he
    unfold getCompressedOffset
    rw [if_neg (by simpa [List.isEmpty_iff] using hne), hbs]
    show (if entries.length ≤ i + 1 then Option.map Prod.fst entries.getLast?
          else some (entries.getD (i + 1 - 1) (0, 0)).1) = some (entries.getD i (0, 0)).1
    by_cases hlast : entries.length ≤ i + 1
    · rw [if_pos hlast, getLast?_eq_getD entries hne]
      have hieq : entries.length - 1 = i := by omega
      rw [hieq]
      rfl
    · rw [if_neg hlast]
      rfl

theorem gzi_first (entries : List (Nat × Nat)) (u : Nat) (e0 : Nat × Nat)
    (hs : (entries.map Prod.snd).Pairwise (· < ·)) (hh : entries.head? = some e0)
    (hu : u < e0.2) :
    getCompressedOffset entries u = some e0.1 := by
  have hne : entries ≠ [] := by intro h; subst h; simp at hh
  have hlen0 : 0 < entries.length := by
    cases entries with
    | nil => simp at hh
    | cons a rest => simp
  have h0 : entries.getD 0 (0, 0) = e0 := by
    cases entries with
    | nil => simp at hh
    | cons a rest => simpa using hh
  have h0m : (0 : Nat) < (entries.map Prod.snd).length := by simpa using hlen0
  have hsnd0 : (entries.map Prod.snd).getD 0 0 = e0.2 := by
    rw [getD_map_snd entries 0 hlen0, h0]
  cases hbs : binarySearch (entries.map Prod.snd) u with
  | ok j =>
    exfalso
    have hspec := (binarySearch_spec _ u hs).1 j hbs
    cases j with
    | zero =>
      rw [hspec.2] at hsnd0
      omega
    | succ j2 =>
      have hx := pairwise_getD_lt _ hs 0 (j2 + 1) (by omega) hspec.1
      rw [hspec.2, hsnd0] at hx
      omega
  | error e =>
    have hspec := (binarySearch_spec _ u hs).2 e hbs
    have he0 : e = 0 := by
      by_contra hcon
      have hx := hspec.2.1 0 (by omega)
      rw [hsnd0] at hx
      omega
    subst he0
    unfold getCompressedOffset
    rw [if_neg (by simpa [List.isEmpty_iff] using hne), hbs]
    show some (entries.getD 0 (0, 0)).1 = some e0.1
    rw [h0]

/-- C4: `get_compressed_offset` returns `none` exactly on the empty
index; on a strictly sorted index it returns the hit entry's compressed
offset on an exact hit, the immediately preceding entry's on a miss
(including past-the-last queries via `i + 1 = length`), and the first
entry's when the query precedes the first entry; the spec's example
table evaluates as stated. -/
theorem C4_gzi_lookup :
    (∀ (entries : List (Nat × Nat)) (u : Nat),
       getCompressedOffset entries u = none ↔ entries = []) ∧
    (∀ (entries : List (Nat × Nat)) (u c : Nat),
       (entries.map Prod.snd).Pairwise (· < ·) → (c, u) ∈ entries →
       getCompressedOffset entries u = some c) ∧
    (∀ (entries : List (Nat × Nat)) (u i : Nat),
       (entries.map Prod.snd).Pairwise (· < ·) → i < entries.length →
       (entries.getD i (0, 0)).2 < u →
       (i + 1 = entries.length ∨ u < (entries.getD (i + 1) (0, 0)).2) →
       getCompressedOffset entries u = some (entries.getD i (0, 0)).1) ∧
    (∀ (entries : List (Nat × Nat)) (u : Nat) (e0 : Nat × Nat),
       (entries.map Prod.snd).Pairwise (· < ·) → entries.head? = some e0 → u < e0.2 →
       getCompressedOffset entries u = some e0.1) ∧
    (getCompressedOffset gziExample 0 = some 0 ∧
     getCompressedOffset gziExample 5000 = some 0 ∧
     getCompressedOffset gziExample 10000 = some 100 ∧
     getCompressedOffset gziExample 15000 = some 100 ∧
     getCompressedOffset gziExample 25000 = some 250 ∧
     getCompressedOffset gziExample 40000 = some 400) :=
  ⟨gzi_none_iff, gzi_exact, gzi_pred, gzi_first, by decide⟩

theorem C4_gzi_lookup_witness : getCompressedOffset [(7, 3), (50, 9)] 9 = some 50 :=
  C4_gzi_lookup.2.1 [(7, 3), (50, 9)] 9 50 (by decide) (by decide)
